import Mathlib

/-!
Verification of the Huffman codec in `src/compression.py` (class
`HuffmanCompressor`).  Bit strings are modelled as `List Bool`
(`false` = the character `0`, `true` = the character `1`); Python dicts
are modelled as ordered association lists with in-place update, which
matches insertion-order semantics of `dict` / `Counter`.  The `heapq`
module functions `heappush` / `heappop` (with `_siftdown` / `_siftup`)
are translated exactly, since `HuffmanNode.__lt__` compares only `freq`
and tie behaviour therefore depends on the heap mechanics.
-/

namespace Compression

/-- One bit of an encoded text: `false` is the character `0`, `true` is `1`. -/
abbrev Bits := List Bool

/-- `a` is a prefix of `b` (possibly equal). -/
def isPref (a b : Bits) : Prop := ∃ t, a ++ t = b

instance (a b : Bits) : Decidable (isPref a b) :=
  if h : a = b.take a.length then
    .isTrue ⟨b.drop a.length, by nth_rewrite 1 [h]; exact List.take_append_drop _ _⟩
  else
    .isFalse (by rintro ⟨t, ht⟩; apply h; rw [← ht]; simp)

/-- Ordered association-list lookup, the model of Python `d[k]` / `k in d`. -/
def lookupT {α β : Type} [DecidableEq α] : List (α × β) → α → Option β
  | [], _ => none
  | (k, v) :: rest, key => if k = key then some v else lookupT rest key

/-- Ordered association-list update, the model of Python `d[k] = v`:
replaces the value in place if the key is present, else appends. -/
def updT {α β : Type} [DecidableEq α] : List (α × β) → α → β → List (α × β)
  | [], key, val => [(key, val)]
  | (k, v) :: rest, key, val =>
      if k = key then (key, val) :: rest else (k, v) :: updT rest key val

mutual
/-- The `HuffmanNode` class: `char` is `None` for internal nodes,
`left`/`right` are `HOpt.none` for the initial leaves. -/
inductive HNode : Type where
  | mk (char : Option Nat) (freq : Nat) (left : HOpt) (right : HOpt)
/-- A `HuffmanNode` or `None` (the type of the `left`/`right` fields and
of the root returned by `build_tree`). -/
inductive HOpt : Type where
  | none
  | some (t : HNode)
end

/-- `node.char`. -/
def HNode.char : HNode → Option Nat
  | .mk c _ _ _ => c

/-- `node.freq`; `HuffmanNode.__lt__` compares only this field. -/
def HNode.freq : HNode → Nat
  | .mk _ f _ _ => f

/-- `node.left`. -/
def HNode.left : HNode → HOpt
  | .mk _ _ l _ => l

/-- `node.right`. -/
def HNode.right : HNode → HOpt
  | .mk _ _ _ r => r

/-- The loop of `heapq._siftdown`, structurally recursive on a fuel that
bounds `pos`: when the fuel is zero, `pos` is zero as well, so the loop
guard `pos > startpos` is already false and the final write happens. -/
def sdFuel : Nat → List HNode → HNode → Nat → Nat → List HNode
  | 0, l, item, _, pos => l.set pos item
  | fuel + 1, l, item, sp, pos =>
      if sp < pos then
        match l[(pos - 1) / 2]? with
        | some parent =>
            if item.freq < parent.freq then
              sdFuel fuel (l.set pos parent) item sp ((pos - 1) / 2)
            else l.set pos item
        | none => l.set pos item
      else l.set pos item

/-- `heapq._siftdown(heap, startpos, pos)` as a pure function; `item` is
`newitem` (the caller guarantees `heap[pos] == item`). -/
def sdAux (l : List HNode) (item : HNode) (sp pos : Nat) : List HNode :=
  sdFuel pos l item sp pos

/-- The child index chosen by `heapq._siftup`: the right child replaces the
left one when `not heap[childpos] < heap[rightpos]`. -/
def suChild (l : List HNode) (pos : Nat) : Nat :=
  if 2 * pos + 2 < l.length then
    match l[2 * pos + 1]?, l[2 * pos + 2]? with
    | some cn, some rn => if cn.freq < rn.freq then 2 * pos + 1 else 2 * pos + 2
    | _, _ => 2 * pos + 1
  else 2 * pos + 1

theorem suChild_lt (l : List HNode) (pos : Nat) (h : 2 * pos + 1 < l.length) :
    pos < suChild l pos ∧ suChild l pos < l.length := by
  unfold suChild
  split
  · split
    · split <;> omega
    · omega
  · omega

/-- The loop of `heapq._siftup`, structurally recursive on a fuel that
bounds `l.length - pos`: when the fuel is zero, `pos` is already past the
last parent, the loop guard `childpos < endpos` is false, and the final
write plus `_siftdown` call happen. -/
def suFuel : Nat → List HNode → HNode → Nat → Nat → List HNode
  | 0, l, item, sp, pos => sdAux l item sp pos
  | fuel + 1, l, item, sp, pos =>
      if 2 * pos + 1 < l.length then
        match l[suChild l pos]? with
        | some child => suFuel fuel (l.set pos child) item sp (suChild l pos)
        | none => sdAux l item sp pos
      else sdAux l item sp pos

/-- `heapq._siftup(heap, pos)` as a pure function (`item` is `newitem`,
`sp` the saved `startpos`). -/
def suAux (l : List HNode) (item : HNode) (sp pos : Nat) : List HNode :=
  suFuel l.length l item sp pos

/-- `heapq.heappush(heap, item)`. -/
def heappush (l : List HNode) (item : HNode) : List HNode :=
  sdAux (l ++ [item]) item 0 l.length

/-- `heapq.heappop(heap)`; `none` models the `IndexError` on an empty heap. -/
def heappop (l : List HNode) : Option (HNode × List HNode) :=
  match l.getLast? with
  | none => none
  | some lastelt =>
      let rest := l.dropLast
      if rest.length = 0 then some (lastelt, rest)
      else
        match rest[0]? with
        | some ret => some (ret, suAux (rest.set 0 lastelt) lastelt 0 0)
        | none => none

/-- Increment of one key of a `Counter` (insertion order preserved). -/
def incr : List (Nat × Nat) → Nat → List (Nat × Nat)
  | [], c => [(c, 1)]
  | (k, v) :: rest, c =>
      if k = c then (k, v + 1) :: rest else (k, v) :: incr rest c

/-- Tail of `collections.Counter(data)`: fold the input into a count table. -/
def bfdAux (acc : List (Nat × Nat)) : List Nat → List (Nat × Nat)
  | [] => acc
  | c :: rest => bfdAux (incr acc c) rest

/-- `build_frequency_dict(data)`, i.e. `Counter(data)`: keys appear in order
of first occurrence, each mapped to its number of occurrences. -/
def build_frequency_dict (data : List Nat) : List (Nat × Nat) :=
  bfdAux [] data

/-- The loop of `build_heap`: push a fresh leaf `HuffmanNode(char, freq)`
for every entry of the frequency dict. -/
def bhAux (heap : List HNode) : List (Nat × Nat) → List HNode
  | [] => heap
  | (ch, f) :: rest => bhAux (heappush heap (HNode.mk (some ch) f .none .none)) rest

/-- `build_heap(frequency)`. -/
def build_heap (frequency : List (Nat × Nat)) : List HNode :=
  bhAux [] frequency

theorem sdFuel_length (fuel : Nat) :
    ∀ l item sp pos, (sdFuel fuel l item sp pos).length = l.length := by
  induction fuel with
  | zero => intro l item sp pos; exact List.length_set ..
  | succ fuel ih =>
    intro l item sp pos
    unfold sdFuel
    split
    · split
      · split
        · rw [ih]; exact List.length_set ..
        · exact List.length_set ..
      · exact List.length_set ..
    · exact List.length_set ..

theorem sdAux_length (l : List HNode) (item : HNode) (sp pos : Nat) :
    (sdAux l item sp pos).length = l.length :=
  sdFuel_length ..

theorem suFuel_length (fuel : Nat) :
    ∀ l item sp pos, (suFuel fuel l item sp pos).length = l.length := by
  induction fuel with
  | zero => intro l item sp pos; exact sdAux_length ..
  | succ fuel ih =>
    intro l item sp pos
    unfold suFuel
    split
    · split
      · rw [ih]; exact List.length_set ..
      · exact sdAux_length ..
    · exact sdAux_length ..

theorem suAux_length (l : List HNode) (item : HNode) (sp pos : Nat) :
    (suAux l item sp pos).length = l.length :=
  suFuel_length ..

theorem heappush_length (l : List HNode) (item : HNode) :
    (heappush l item).length = l.length + 1 := by
  unfold heappush
  rw [sdAux_length, List.length_append, List.length_cons, List.length_nil]

theorem heappop_length (l : List HNode) (n : HNode) (l' : List HNode)
    (h : heappop l = some (n, l')) : l'.length + 1 = l.length := by
  unfold heappop at h
  match hl : l.getLast? with
  | none => rw [hl] at h; exact absurd h (by simp)
  | some lastelt =>
    rw [hl] at h
    have hne : l ≠ [] := by
      intro he; rw [he] at hl; exact absurd hl (by simp)
    have hdl : l.dropLast.length = l.length - 1 := List.length_dropLast l
    have hlen : 1 ≤ l.length := List.length_pos_of_ne_nil hne
    simp only at h
    split at h
    · rename_i h0
      cases h
      omega
    · rename_i h0
      match h0' : l.dropLast[0]? with
      | none =>
        rw [h0'] at h
        exact absurd h (by simp)
      | some ret =>
        rw [h0'] at h
        cases h
        rw [suAux_length, List.length_set]
        omega

/-- The while-loop of `build_tree`, structurally recursive on a fuel that
bounds `heap.length - 1` (every iteration shrinks the heap by one): pop
the two lowest-weight nodes, merge them into an internal
`HuffmanNode(None, f1 + f2)`, and push the result, until at most one node
remains.  Zero fuel means the heap has at most one node, so the loop
guard is already false. -/
def btlFuel : Nat → List HNode → List HNode
  | 0, heap => heap
  | fuel + 1, heap =>
      if heap.length > 1 then
        match heappop heap with
        | some (n1, h1) =>
            match heappop h1 with
            | some (n2, h2) =>
                btlFuel fuel (heappush h2 (HNode.mk none (n1.freq + n2.freq) (.some n1) (.some n2)))
            | none => h1
        | none => heap
      else heap

/-- The while-loop of `build_tree`. -/
def buildTreeLoop (heap : List HNode) : List HNode :=
  btlFuel heap.length heap

/-- `build_tree(heap)`: returns `heap[0] if heap else None`. -/
def build_tree (heap : List HNode) : HOpt :=
  match (buildTreeLoop heap).head? with
  | Option.none => .none
  | Option.some t => .some t

/-- The pair of instance dicts `self.codes` / `self.reverse_mapping`. -/
structure Tables : Type where
  codes : List (Nat × Bits)
  reverse_mapping : List (Bits × Nat)
deriving DecidableEq

/-- The freshly-constructed state of `HuffmanCompressor.__init__`. -/
def freshTables : Tables := ⟨[], []⟩

mutual
/-- `build_codes(node, current_code)`: record `(char, code)` at every node
with a non-`None` char, descending left with `0` and right with `1`;
updates both instance dicts. -/
def build_codes : HOpt → Bits → Tables → Tables
  | .none, _, st => st
  | .some n, cur, st => build_codesN n cur st
/-- `build_codes` on a node that is not `None`. -/
def build_codesN : HNode → Bits → Tables → Tables
  | .mk (some c) _ _ _, cur, st =>
      ⟨updT st.codes c cur, updT st.reverse_mapping cur c⟩
  | .mk none _ l r, cur, st =>
      build_codes r (cur ++ [true]) (build_codes l (cur ++ [false]) st)
end

/-- `get_encoded_text(text)`: concatenate `self.codes[char]` over the input;
`none` models the `KeyError` when a byte has no code. -/
def get_encoded_text (codes : List (Nat × Bits)) : List Nat → Option Bits
  | [] => some []
  | c :: rest =>
      match lookupT codes c with
      | none => none
      | some code => (get_encoded_text codes rest).map (fun e => code ++ e)

/-- `"{0:08b}".format(n)` for `n < 256`: the 8-bit big-endian bits of `n`. -/
def toBin8 (n : Nat) : Bits :=
  (List.range 8).map (fun i => n.testBit (7 - i))

/-- `int(s, 2)` on a bit string. -/
def bitsToNat (s : Bits) : Nat :=
  s.foldl (fun a b => 2 * a + (if b then 1 else 0)) 0

/-- `pad_encoded_text(encoded_text)`: append `8 - len % 8` zero bits (note:
eight of them when the text is already byte-aligned) and prepend the 8-bit
padding header. -/
def pad_encoded_text (encoded_text : Bits) : Bits :=
  toBin8 (8 - encoded_text.length % 8) ++
    (encoded_text ++ List.replicate (8 - encoded_text.length % 8) false)

/-- The chunking loop of `get_byte_array`, structurally recursive on a
fuel that bounds `s.length` (zero fuel forces `s = []`, where the loop
does nothing): each 8 bits become one byte. -/
def toBytesF : Nat → Bits → List Nat
  | 0, _ => []
  | fuel + 1, s => if s = [] then [] else bitsToNat (s.take 8) :: toBytesF fuel (s.drop 8)

/-- The chunking loop of `get_byte_array`. -/
def toBytes (s : Bits) : List Nat :=
  toBytesF s.length s

/-- `get_byte_array(padded_encoded_text)`; `none` models the
`exit(0)` taken when the text is not a multiple of 8 bits. -/
def get_byte_array (padded : Bits) : Option (List Nat) :=
  if padded.length % 8 = 0 then some (toBytes padded) else none

/-- The artifact pickled by `compress`: the dict with keys
`reverse_mapping` and `compressed_data`. -/
structure Artifact : Type where
  reverse_mapping : List (Bits × Nat)
  compressed_data : List Nat
deriving DecidableEq

/-- `compress` on an in-memory buffer: returns the updated instance state
together with the pickled artifact, or the `(False, message)` failure. -/
def compress (st : Tables) (text : List Nat) : Except String (Tables × Artifact) :=
  if text.length = 0 then .error "File is empty"
  else
    let frequency := build_frequency_dict text
    let heap := build_heap frequency
    let root := build_tree heap
    let st' := build_codes root [] st
    match get_encoded_text st'.codes text with
    | none => .error "Compression failed"
    | some encoded_text =>
        match get_byte_array (pad_encoded_text encoded_text) with
        | none => .error "Compression failed"
        | some b => .ok (st', ⟨st'.reverse_mapping, b⟩)

/-- `remove_padding(padded_encoded_text)`: read the 8-bit header, drop it,
and slice `[:-extra_padding]` (the Python slice yields the empty string
when `extra_padding` is `0`); `none` models the `ValueError` of
`int("", 2)` on an empty bit string. -/
def remove_padding (padded : Bits) : Option Bits :=
  if padded = [] then none
  else if bitsToNat (padded.take 8) = 0 then some []
  else some ((padded.drop 8).take ((padded.drop 8).length - bitsToNat (padded.take 8)))

/-- The decoding loop of `decode_text`, keeping the final `current_code`:
grow a candidate bit string, emit a byte whenever it is a key of
`reverse_mapping`, and silently keep any unmatched remainder. -/
def decode_text_aux (rm : List (Bits × Nat)) :
    Bits → List Nat → Bits → List Nat × Bits
  | [], acc, cur => (acc, cur)
  | bit :: rest, acc, cur =>
      match lookupT rm (cur ++ [bit]) with
      | some ch => decode_text_aux rm rest (acc ++ [ch]) []
      | none => decode_text_aux rm rest acc (cur ++ [bit])

/-- `decode_text(encoded_text)`: the decoded bytes (the leftover candidate
bit string of the loop is discarded). -/
def decode_text (rm : List (Bits × Nat)) (encoded_text : Bits) : List Nat :=
  (decode_text_aux rm encoded_text [] []).1

instance {ε α : Type} [DecidableEq ε] [DecidableEq α] : DecidableEq (Except ε α)
  | .error e, .error f =>
      if h : e = f then .isTrue (by rw [h]) else .isFalse (by intro hh; cases hh; exact h rfl)
  | .error _, .ok _ => .isFalse (by intro h; cases h)
  | .ok _, .error _ => .isFalse (by intro h; cases h)
  | .ok x, .ok y =>
      if h : x = y then .isTrue (by rw [h]) else .isFalse (by intro hh; cases hh; exact h rfl)

/-- `decompress` on an in-memory artifact: rebuild the bit string from the
payload bytes, strip the padding, and decode with the stored
reverse mapping. -/
def decompress (art : Artifact) : Except String (List Nat) :=
  let bit_string := art.compressed_data.flatMap toBin8
  match remove_padding bit_string with
  | none => .error "Decompression failed"
  | some encoded_text => .ok (decode_text art.reverse_mapping encoded_text)

/-! ### Association-table lemmas -/

theorem lookupT_mem {α β : Type} [DecidableEq α] :
    ∀ (tbl : List (α × β)) (k : α) (v : β), lookupT tbl k = some v → (k, v) ∈ tbl
  | [], k, v, h => absurd h (by simp [lookupT])
  | (k1, v1) :: rest, k, v, h => by
      rw [lookupT] at h
      split at h
      · cases h
        rename_i heq
        rw [← heq]
        exact List.mem_cons_self ..
      · exact List.mem_cons_of_mem _ (lookupT_mem rest k v h)

theorem mem_updT {α β : Type} [DecidableEq α] :
    ∀ (tbl : List (α × β)) (k : α) (v : β) (x : α × β),
      x ∈ updT tbl k v → x ∈ tbl ∨ x = (k, v)
  | [], k, v, x, h => by
      simp [updT] at h
      exact Or.inr h
  | (k1, v1) :: rest, k, v, x, h => by
      rw [updT] at h
      split at h
      · rcases List.mem_cons.mp h with h' | h'
        · exact Or.inr h'
        · exact Or.inl (List.mem_cons_of_mem _ h')
      · rcases List.mem_cons.mp h with h' | h'
        · exact Or.inl (h' ▸ List.mem_cons_self ..)
        · rcases mem_updT rest k v x h' with h'' | h''
          · exact Or.inl (List.mem_cons_of_mem _ h'')
          · exact Or.inr h''

theorem lookupT_updT_self {α β : Type} [DecidableEq α] :
    ∀ (tbl : List (α × β)) (k : α) (v : β), lookupT (updT tbl k v) k = some v
  | [], k, v => by simp [updT, lookupT]
  | (k1, v1) :: rest, k, v => by
      rw [updT]
      split
      · rw [lookupT, if_pos rfl]
      · rw [lookupT, if_neg (by assumption), lookupT_updT_self rest k v]

theorem lookupT_updT_ne {α β : Type} [DecidableEq α] :
    ∀ (tbl : List (α × β)) (k k' : α) (v : β), k ≠ k' →
      lookupT (updT tbl k v) k' = lookupT tbl k'
  | [], k, k', v, hne => by simp [updT, lookupT, hne]
  | (k1, v1) :: rest, k, k', v, hne => by
      by_cases h : k1 = k
      · have h' : k1 ≠ k' := by rw [h]; exact hne
        rw [updT, if_pos h, lookupT, if_neg hne, lookupT, if_neg h']
      · rw [updT, if_neg h, lookupT, lookupT]
        split
        · rfl
        · exact lookupT_updT_ne rest k k' v hne

/-! ### Prefix lemmas -/

theorem isPref_append (a t : Bits) : isPref a (a ++ t) := ⟨t, rfl⟩

theorem isPref_refl (a : Bits) : isPref a a := ⟨[], by simp⟩

theorem isPref_trans {a b c : Bits} : isPref a b → isPref b c → isPref a c := by
  rintro ⟨t1, rfl⟩ ⟨t2, rfl⟩
  exact ⟨t1 ++ t2, by simp⟩

theorem isPref_eq_of_length {a b c : Bits} (h1 : isPref a c) (h2 : isPref b c)
    (hl : a.length = b.length) : a = b := by
  rcases h1 with ⟨t1, e1⟩
  rcases h2 with ⟨t2, e2⟩
  exact (List.append_inj (e1.trans e2.symm) hl).1

theorem isPref_cons {x : Bool} {a b : Bits} (h : isPref (x :: a) (x :: b)) :
    isPref a b := by
  rcases h with ⟨t, e⟩
  exact ⟨t, by injection e⟩

theorem not_isPref_cons_ne {x y : Bool} {a b : Bits} (hxy : x ≠ y) :
    ¬ isPref (x :: a) (y :: b) := by
  rintro ⟨t, e⟩
  injection e with e1 _
  exact hxy e1

/-! ### What `build_codes` records -/

/-- `Assigns t s q` holds when the `build_codes` traversal of the tree `t`
records symbol `s` at relative path `q` (`false` = left, `true` = right):
a node with a non-`None` char records it immediately, and an internal node
delegates to existing children. -/
inductive Assigns : HNode → Nat → Bits → Prop where
  | leaf (ch : Nat) (f : Nat) (l r : HOpt) : Assigns (.mk (some ch) f l r) ch []
  | goLeft (f : Nat) (lt : HNode) (r : HOpt) (s : Nat) (q : Bits) :
      Assigns lt s q → Assigns (.mk none f (.some lt) r) s (false :: q)
  | goRight (f : Nat) (l : HOpt) (rt : HNode) (s : Nat) (q : Bits) :
      Assigns rt s q → Assigns (.mk none f l (.some rt)) s (true :: q)

/-- `Assigns` lifted to a possibly-`None` node. -/
def AssignsO : HOpt → Nat → Bits → Prop
  | .none, _, _ => False
  | .some t, s, q => Assigns t s q

mutual
theorem mem_build_codes (o : HOpt) (cur : Bits) (st : Tables) (s : Nat) (c : Bits)
    (h : (s, c) ∈ (build_codes o cur st).codes) :
    (s, c) ∈ st.codes ∨ ∃ q, AssignsO o s q ∧ c = cur ++ q :=
  match o with
  | .none => Or.inl h
  | .some n => mem_build_codesN n cur st s c h

theorem mem_build_codesN (n : HNode) (cur : Bits) (st : Tables) (s : Nat) (c : Bits)
    (h : (s, c) ∈ (build_codesN n cur st).codes) :
    (s, c) ∈ st.codes ∨ ∃ q, Assigns n s q ∧ c = cur ++ q :=
  match n, h with
  | .mk (some ch) f l r, h => by
      rcases mem_updT _ _ _ _ h with h' | h'
      · exact Or.inl h'
      · injection h' with hs hc
        rw [hs, hc]
        exact Or.inr ⟨[], Assigns.leaf ch f l r, by simp⟩
  | .mk none f l r, h => by
      rcases mem_build_codes r (cur ++ [true]) _ s c h with h' | ⟨q, ha, rfl⟩
      · rcases mem_build_codes l (cur ++ [false]) st s c h' with h'' | ⟨q, ha, rfl⟩
        · exact Or.inl h''
        · match l, ha with
          | .some lt, ha =>
            exact Or.inr ⟨false :: q, Assigns.goLeft f lt r s q ha, by simp⟩
      · match r, ha with
        | .some rt, ha =>
          exact Or.inr ⟨true :: q, Assigns.goRight f l rt s q ha, by simp⟩
end

theorem assigns_no_pref :
    ∀ {t : HNode} {s1 q1}, Assigns t s1 q1 → ∀ {s2 q2}, Assigns t s2 q2 →
      isPref q1 q2 → s1 = s2 ∧ q1 = q2 := by
  intro t s1 q1 a1
  induction a1 with
  | leaf ch f l r =>
    intro s2 q2 a2 _
    cases a2
    exact ⟨rfl, rfl⟩
  | goLeft f lt r s q a1' ih =>
    intro s2 q2 a2 hp
    cases a2 with
    | goLeft _ _ _ _ q2' a2' =>
      rcases ih a2' (isPref_cons hp) with ⟨hs, hq⟩
      exact ⟨hs, by rw [hq]⟩
    | goRight _ _ _ _ q2' a2' =>
      exact absurd hp (not_isPref_cons_ne (by simp))
  | goRight f l rt s q a1' ih =>
    intro s2 q2 a2 hp
    cases a2 with
    | goLeft _ _ _ _ q2' a2' =>
      exact absurd hp (not_isPref_cons_ne (by simp))
    | goRight _ _ _ _ q2' a2' =>
      rcases ih a2' (isPref_cons hp) with ⟨hs, hq⟩
      exact ⟨hs, by rw [hq]⟩

/-! ### Claim theorem C8 -/

/-- C8: the code table generated for a (non-empty) input on a fresh
compressor is prefix-free: codes of distinct symbols are never prefixes of
one another. -/
theorem build_codes_prefix_free (data : List Nat) (s1 s2 : Nat) (c1 c2 : Bits)
    (hdata : data ≠ [])
    (h1 : lookupT (build_codes (build_tree (build_heap
      (build_frequency_dict data))) [] freshTables).codes s1 = some c1)
    (h2 : lookupT (build_codes (build_tree (build_heap
      (build_frequency_dict data))) [] freshTables).codes s2 = some c2)
    (hs : s1 ≠ s2) : ¬ isPref c1 c2 := by
  intro hp
  rcases mem_build_codes _ _ _ _ _ (lookupT_mem _ _ _ h1) with hm | ⟨q1, ha1, rfl⟩
  · exact absurd hm (List.not_mem_nil _)
  · rcases mem_build_codes _ _ _ _ _ (lookupT_mem _ _ _ h2) with hm | ⟨q2, ha2, rfl⟩
    · exact absurd hm (List.not_mem_nil _)
    · match hr : build_tree (build_heap (build_frequency_dict data)), ha1, ha2 with
      | .none, ha1, _ => exact ha1.elim
      | .some t, ha1, ha2 =>
        exact hs (assigns_no_pref ha1 ha2 (by simpa using hp)).1

/-- Witness for `build_codes_prefix_free` on the scenario input
`aaabbc`: the codes of `a` (97) and `c` (99). -/
theorem build_codes_prefix_free_witness :
    lookupT (build_codes (build_tree (build_heap
      (build_frequency_dict [97, 97, 97, 98, 98, 99]))) [] freshTables).codes 97
      = some [false] ∧
    lookupT (build_codes (build_tree (build_heap
      (build_frequency_dict [97, 97, 97, 98, 98, 99]))) [] freshTables).codes 99
      = some [true, false] ∧
    ¬ isPref [false] [true, false] :=
  ⟨by decide, by decide,
    build_codes_prefix_free [97, 97, 97, 98, 98, 99] 97 99 [false] [true, false]
      (by decide) (by decide) (by decide) (by decide)⟩

/-! ### Heap membership: the sift operations only rearrange elements, so
every element put into the heap stays in the heap -/

theorem mem_set_transfer {l : List HNode} {i j : Nat} {v item x : HNode}
    (hij : i ≠ j) (hi : i < l.length) (hv : l[j]? = some v)
    (hx : x ∈ l.set i item) : x ∈ (l.set i v).set j item := by
  have hj : j < l.length := (List.getElem?_eq_some.mp hv).1
  rcases List.mem_iff_getElem?.mp hx with ⟨k, hk⟩
  rw [List.getElem?_set] at hk
  by_cases hki : i = k
  · rw [if_pos hki, if_pos hi] at hk
    refine List.mem_iff_getElem?.mpr ⟨j, ?_⟩
    rw [List.getElem?_set, if_pos rfl, if_pos (by simp [hj])]
    exact hk
  · rw [if_neg hki] at hk
    by_cases hkj : j = k
    · rw [← hkj, hv] at hk
      refine List.mem_iff_getElem?.mpr ⟨i, ?_⟩
      rw [List.getElem?_set, if_neg (fun he => hij he.symm), List.getElem?_set,
        if_pos rfl, if_pos hi]
      exact hk
    · refine List.mem_iff_getElem?.mpr ⟨k, ?_⟩
      rw [List.getElem?_set, if_neg hkj, List.getElem?_set, if_neg hki]
      exact hk

theorem sdFuel_mem (fuel : Nat) :
    ∀ (l : List HNode) (item : HNode) (sp pos : Nat) (x : HNode),
      pos < l.length → x ∈ l.set pos item → x ∈ sdFuel fuel l item sp pos := by
  induction fuel with
  | zero => intro l item sp pos x _ hx; exact hx
  | succ fuel ih =>
    intro l item sp pos x hpos hx
    rw [sdFuel]
    split
    · cases hp : l[(pos - 1) / 2]? with
      | none => simp only [hp]; exact hx
      | some parent =>
        simp only [hp]
        split
        · refine ih _ item sp _ x ?_ (mem_set_transfer (by omega) hpos hp hx)
          rw [List.length_set]
          exact (List.getElem?_eq_some.mp hp).1
        · exact hx
    · exact hx

theorem sdAux_mem {l : List HNode} {item : HNode} {sp pos : Nat} {x : HNode}
    (hpos : pos < l.length) (hx : x ∈ l.set pos item) :
    x ∈ sdAux l item sp pos :=
  sdFuel_mem pos l item sp pos x hpos hx

theorem suFuel_mem (fuel : Nat) :
    ∀ (l : List HNode) (item : HNode) (sp pos : Nat) (x : HNode),
      pos < l.length → x ∈ l.set pos item → x ∈ suFuel fuel l item sp pos := by
  induction fuel with
  | zero => intro l item sp pos x hpos hx; exact sdAux_mem hpos hx
  | succ fuel ih =>
    intro l item sp pos x hpos hx
    rw [suFuel]
    split
    · rename_i hlt
      have hc := suChild_lt l pos hlt
      cases hp : l[suChild l pos]? with
      | none => simp only [hp]; exact sdAux_mem hpos hx
      | some child =>
        simp only [hp]
        refine ih _ item sp _ x ?_ (mem_set_transfer (by omega) hpos hp hx)
        rw [List.length_set]
        exact hc.2
    · exact sdAux_mem hpos hx

theorem set_append_last (l : List HNode) (a : HNode) :
    (l ++ [a]).set l.length a = l ++ [a] := by
  induction l with
  | nil => rfl
  | cons y l' ih => simp [List.set, ih]

theorem heappush_mem {l : List HNode} {item x : HNode}
    (hx : x ∈ l ∨ x = item) : x ∈ heappush l item := by
  rw [heappush]
  refine sdFuel_mem _ _ _ _ _ x (by simp) ?_
  rw [set_append_last]
  rcases hx with h | h
  · exact List.mem_append.mpr (Or.inl h)
  · exact List.mem_append.mpr (Or.inr (by simp [h]))

theorem heappop_mem {l : List HNode} {ret : HNode} {l' : List HNode}
    (h : heappop l = some (ret, l')) {x : HNode} (hx : x ∈ l) :
    x = ret ∨ x ∈ l' := by
  rw [heappop] at h
  match hgl : l.getLast? with
  | none =>
    rw [hgl] at h
    exact absurd h (by simp)
  | some lastelt =>
    rw [hgl] at h
    have hne : l ≠ [] := by
      intro he
      rw [he] at hgl
      exact absurd hgl (by simp)
    have hsplit : l.dropLast ++ [l.getLast hne] = l := List.dropLast_append_getLast hne
    have hlast : l.getLast hne = lastelt := by
      have h2 := List.getLast?_eq_getLast l hne
      rw [hgl] at h2
      injection h2 with h2'
      exact h2'.symm
    rw [hlast] at hsplit
    simp only at h
    split at h
    · rename_i h0
      obtain ⟨hr, hl'⟩ := Prod.mk.inj (Option.some.inj h)
      left
      rw [← hr]
      have hl1 : l = [lastelt] := by
        rw [← hsplit, List.eq_nil_of_length_eq_zero h0]
        rfl
      rw [hl1] at hx
      exact List.mem_singleton.mp hx
    · rename_i h0
      match h1 : l.dropLast[0]? with
      | none =>
        rw [h1] at h
        exact absurd h (by simp)
      | some ret0 =>
        rw [h1] at h
        obtain ⟨hr, hl'⟩ := Prod.mk.inj (Option.some.inj h)
        have hpos0 : 0 < l.dropLast.length := by omega
        rw [← hsplit] at hx
        rcases List.mem_append.mp hx with hx' | hx'
        · rcases List.mem_iff_getElem?.mp hx' with ⟨k, hk⟩
          by_cases hk0 : k = 0
          · subst hk0
            left
            rw [h1] at hk
            rw [← hr, ← Option.some.inj hk]
          · right
            rw [← hl']
            refine suFuel_mem _ _ _ _ _ x
              (by rw [List.length_set]; exact hpos0) ?_
            rw [List.set_set]
            refine List.mem_iff_getElem?.mpr ⟨k, ?_⟩
            rw [List.getElem?_set, if_neg (fun he => hk0 he.symm)]
            exact hk
        · right
          rw [← hl']
          refine suFuel_mem _ _ _ _ _ x
            (by rw [List.length_set]; exact hpos0) ?_
          rw [List.set_set]
          refine List.mem_iff_getElem?.mpr ⟨0, ?_⟩
          rw [List.getElem?_set, if_pos rfl, if_pos hpos0,
            List.mem_singleton.mp hx']

theorem heappop_ne_none {l : List HNode} (hne : l ≠ []) :
    heappop l ≠ none := by
  rw [heappop]
  match hgl : l.getLast? with
  | none => exact absurd (List.getLast?_eq_none.mp hgl) hne
  | some lastelt =>
    simp only
    split
    · simp
    · rename_i h0
      match h1 : l.dropLast[0]? with
      | none =>
        have h2 : l.dropLast.length ≤ 0 := by
          by_contra hc
          rw [List.getElem?_eq_getElem (by omega)] at h1
          exact absurd h1 (by simp)
        omega
      | some ret0 => simp

/-! ### Every byte of the input ends up assigned by the built tree -/

/-- `AOn n c`: the `build_codes` traversal of `n` records symbol `c`
somewhere. -/
def AOn (n : HNode) (c : Nat) : Prop := ∃ q, Assigns n c q

theorem aOn_left {f : Nat} {lt : HNode} {r : HOpt} {c : Nat} (h : AOn lt c) :
    AOn (HNode.mk none f (.some lt) r) c := by
  rcases h with ⟨q, hq⟩
  exact ⟨false :: q, Assigns.goLeft _ _ _ _ _ hq⟩

theorem aOn_right {f : Nat} {l : HOpt} {rt : HNode} {c : Nat} (h : AOn rt c) :
    AOn (HNode.mk none f l (.some rt)) c := by
  rcases h with ⟨q, hq⟩
  exact ⟨true :: q, Assigns.goRight _ _ _ _ _ hq⟩

/-- `HeapA l c`: some node of the heap assigns symbol `c`. -/
def HeapA (l : List HNode) (c : Nat) : Prop := ∃ n ∈ l, AOn n c

theorem heapA_push {l : List HNode} {item : HNode} {c : Nat} (h : HeapA l c) :
    HeapA (heappush l item) c := by
  rcases h with ⟨n, hn, han⟩
  exact ⟨n, heappush_mem (Or.inl hn), han⟩

theorem heapA_push_item {l : List HNode} {item : HNode} {c : Nat} (h : AOn item c) :
    HeapA (heappush l item) c :=
  ⟨item, heappush_mem (Or.inr rfl), h⟩

theorem heapA_pop {l : List HNode} {ret : HNode} {l' : List HNode} {c : Nat}
    (hpop : heappop l = some (ret, l')) (h : HeapA l c) :
    AOn ret c ∨ HeapA l' c := by
  rcases h with ⟨n, hn, han⟩
  rcases heappop_mem hpop hn with h' | h'
  · exact Or.inl (h' ▸ han)
  · exact Or.inr ⟨n, h', han⟩

theorem btlFuel_heapA (fuel : Nat) :
    ∀ (heap : List HNode) (c : Nat), HeapA heap c → HeapA (btlFuel fuel heap) c := by
  induction fuel with
  | zero => intro heap c h; exact h
  | succ fuel ih =>
    intro heap c h
    rw [btlFuel]
    split
    · rename_i hgt
      have hne : heap ≠ [] := by
        intro he
        rw [he] at hgt
        simp at hgt
      cases hp : heappop heap with
      | none => exact absurd hp (heappop_ne_none hne)
      | some pr =>
        obtain ⟨n1, h1⟩ := pr
        simp only [hp]
        have e1 := heappop_length _ _ _ hp
        have hne1 : h1 ≠ [] := by
          intro he
          rw [he] at e1
          simp at e1
          omega
        cases hp2 : heappop h1 with
        | none => exact absurd hp2 (heappop_ne_none hne1)
        | some pr2 =>
          obtain ⟨n2, h2⟩ := pr2
          simp only [hp2]
          apply ih
          rcases heapA_pop hp h with han1 | h1A
          · exact heapA_push_item (aOn_left han1)
          · rcases heapA_pop hp2 h1A with han2 | h2A
            · exact heapA_push_item (aOn_right han2)
            · exact heapA_push h2A
    · exact h

theorem btlFuel_length_le (fuel : Nat) :
    ∀ heap : List HNode, heap.length ≤ fuel + 1 → (btlFuel fuel heap).length ≤ 1 := by
  induction fuel with
  | zero => intro heap hle; exact hle
  | succ fuel ih =>
    intro heap hle
    rw [btlFuel]
    split
    · rename_i hgt
      have hne : heap ≠ [] := by
        intro he
        rw [he] at hgt
        simp at hgt
      cases hp : heappop heap with
      | none => exact absurd hp (heappop_ne_none hne)
      | some pr =>
        obtain ⟨n1, h1⟩ := pr
        simp only [hp]
        have e1 := heappop_length _ _ _ hp
        have hne1 : h1 ≠ [] := by
          intro he
          rw [he] at e1
          simp at e1
          omega
        cases hp2 : heappop h1 with
        | none => exact absurd hp2 (heappop_ne_none hne1)
        | some pr2 =>
          obtain ⟨n2, h2⟩ := pr2
          simp only [hp2]
          have e2 := heappop_length _ _ _ hp2
          apply ih
          rw [heappush_length]
          omega
    · rename_i hgt
      omega

theorem build_tree_assigned (heap : List HNode) (c : Nat) (h : HeapA heap c) :
    ∃ t, build_tree heap = .some t ∧ AOn t c := by
  have hA := btlFuel_heapA heap.length heap c h
  have hlen := btlFuel_length_le heap.length heap (by omega)
  rcases hA with ⟨n, hn, han⟩
  match hf : btlFuel heap.length heap with
  | [] =>
    rw [hf] at hn
    exact absurd hn (List.not_mem_nil _)
  | y :: rest =>
    rw [hf] at hn hlen
    have hrest : rest = [] := by
      rw [List.length_cons] at hlen
      exact List.eq_nil_of_length_eq_zero (by omega)
    subst hrest
    refine ⟨y, ?_, ?_⟩
    · rw [build_tree, buildTreeLoop, hf]
      rfl
    · exact (List.mem_singleton.mp hn) ▸ han

theorem mem_incr_self : ∀ (acc : List (Nat × Nat)) (c : Nat), ∃ k, (c, k) ∈ incr acc c
  | [], c => ⟨1, by simp [incr]⟩
  | (k1, v1) :: rest, c => by
      rw [incr]
      split
      · rename_i h
        exact ⟨v1 + 1, by rw [← h]; exact List.mem_cons_self ..⟩
      · obtain ⟨k, hk⟩ := mem_incr_self rest c
        exact ⟨k, List.mem_cons_of_mem _ hk⟩

theorem mem_incr_keep :
    ∀ (acc : List (Nat × Nat)) (c c' : Nat),
      (∃ k, (c, k) ∈ acc) → ∃ k, (c, k) ∈ incr acc c'
  | [], c, c', h => by
      rcases h with ⟨k, hk⟩
      exact absurd hk (List.not_mem_nil _)
  | (k1, v1) :: rest, c, c', h => by
      rcases h with ⟨k, hk⟩
      rw [incr]
      split
      · rcases List.mem_cons.mp hk with hh | hh
        · injection hh with hh1 hh2
          exact ⟨v1 + 1, by rw [hh1]; exact List.mem_cons_self ..⟩
        · exact ⟨k, List.mem_cons_of_mem _ hh⟩
      · rcases List.mem_cons.mp hk with hh | hh
        · exact ⟨k, by rw [hh]; exact List.mem_cons_self ..⟩
        · obtain ⟨k', hk'⟩ := mem_incr_keep rest c c' ⟨k, hh⟩
          exact ⟨k', List.mem_cons_of_mem _ hk'⟩

theorem bfdAux_mem :
    ∀ (data : List Nat) (acc : List (Nat × Nat)) (c : Nat),
      (c ∈ data ∨ ∃ k, (c, k) ∈ acc) → ∃ k, (c, k) ∈ bfdAux acc data
  | [], acc, c, h => by
      rcases h with h | h
      · exact absurd h (List.not_mem_nil _)
      · exact h
  | d :: rest, acc, c, h => by
      rw [bfdAux]
      rcases h with h | h
      · rcases List.mem_cons.mp h with hh | hh
        · exact bfdAux_mem rest _ c (Or.inr (hh ▸ mem_incr_self acc c))
        · exact bfdAux_mem rest _ c (Or.inl hh)
      · exact bfdAux_mem rest _ c (Or.inr (mem_incr_keep acc c d h))

theorem build_frequency_dict_mem (data : List Nat) (c : Nat) (h : c ∈ data) :
    ∃ k, (c, k) ∈ build_frequency_dict data :=
  bfdAux_mem data [] c (Or.inl h)

theorem bhAux_heapA_keep :
    ∀ (pairs : List (Nat × Nat)) (heap : List HNode) (c : Nat),
      HeapA heap c → HeapA (bhAux heap pairs) c
  | [], _, _, h => h
  | (c1, f1) :: rest, heap, c, h => bhAux_heapA_keep rest _ c (heapA_push h)

theorem bhAux_heapA :
    ∀ (pairs : List (Nat × Nat)) (heap : List HNode) (ch k : Nat),
      (ch, k) ∈ pairs → HeapA (bhAux heap pairs) ch
  | [], _, _, _, h => absurd h (List.not_mem_nil _)
  | (c1, f1) :: rest, heap, ch, k, h => by
      rw [bhAux]
      rcases List.mem_cons.mp h with hh | hh
      · injection hh with hh1 hh2
        exact bhAux_heapA_keep rest _ ch
          (heapA_push_item ⟨[], hh1 ▸ Assigns.leaf c1 f1 .none .none⟩)
      · exact bhAux_heapA rest _ ch k hh

/-- Every byte occurring in the input is assigned a code by the tree the
compression pipeline builds for that input. -/
theorem pipeline_assigned (data : List Nat) (c : Nat) (h : c ∈ data) :
    ∃ t, build_tree (build_heap (build_frequency_dict data)) = .some t ∧ AOn t c := by
  obtain ⟨k, hk⟩ := build_frequency_dict_mem data c h
  exact build_tree_assigned _ c (bhAux_heapA _ [] c k hk)

/-! ### The codes looked up for assigned symbols do not depend on the
initial (possibly stale) state of the tables -/

/-- `AOn` lifted to a possibly-`None` node. -/
def AOnO (o : HOpt) (c : Nat) : Prop := ∃ q, AssignsO o c q

theorem not_aOn_internal_left {f : Nat} {l r : HOpt} {s : Nat}
    (h : ¬ AOn (HNode.mk none f l r) s) : ¬ AOnO l s := by
  rintro ⟨q, hq⟩
  match l, hq with
  | .some lt, hq => exact h ⟨false :: q, Assigns.goLeft f lt r s q hq⟩

theorem not_aOn_internal_right {f : Nat} {l r : HOpt} {s : Nat}
    (h : ¬ AOn (HNode.mk none f l r) s) : ¬ AOnO r s := by
  rintro ⟨q, hq⟩
  match r, hq with
  | .some rt, hq => exact h ⟨true :: q, Assigns.goRight f l rt s q hq⟩

theorem aOn_internal_inv {f : Nat} {l r : HOpt} {s : Nat}
    (h : AOn (HNode.mk none f l r) s) : AOnO l s ∨ AOnO r s := by
  rcases h with ⟨q, hq⟩
  cases hq with
  | goLeft _ lt _ _ q' h' => exact Or.inl ⟨q', h'⟩
  | goRight _ _ rt _ q' h' => exact Or.inr ⟨q', h'⟩

mutual
theorem bc_lookup_untouched (o : HOpt) (s : Nat) (h : ¬ AOnO o s) :
    ∀ (cur : Bits) (st : Tables),
      lookupT (build_codes o cur st).codes s = lookupT st.codes s :=
  match o with
  | .none => fun _ _ => rfl
  | .some n => bcN_lookup_untouched n s h

theorem bcN_lookup_untouched (n : HNode) (s : Nat) (h : ¬ AOn n s) :
    ∀ (cur : Bits) (st : Tables),
      lookupT (build_codesN n cur st).codes s = lookupT st.codes s :=
  match n with
  | .mk (some ch) f l r => fun cur st => by
      have hne : ch ≠ s := by
        intro he
        exact h ⟨[], he ▸ Assigns.leaf ch f l r⟩
      exact lookupT_updT_ne _ ch s cur hne
  | .mk none f l r => fun cur st => by
      show lookupT (build_codes r (cur ++ [true])
          (build_codes l (cur ++ [false]) st)).codes s = lookupT st.codes s
      rw [bc_lookup_untouched r s (not_aOn_internal_right h),
        bc_lookup_untouched l s (not_aOn_internal_left h)]
end

mutual
theorem bc_lookup_indep (o : HOpt) (s : Nat) (h : AOnO o s) :
    ∀ (cur : Bits) (st st' : Tables),
      lookupT (build_codes o cur st).codes s
        = lookupT (build_codes o cur st').codes s :=
  match o with
  | .none => fun cur st st' => h.elim (fun _ hq => False.elim hq)
  | .some n => bcN_lookup_indep n s h

theorem bcN_lookup_indep (n : HNode) (s : Nat) (h : AOn n s) :
    ∀ (cur : Bits) (st st' : Tables),
      lookupT (build_codesN n cur st).codes s
        = lookupT (build_codesN n cur st').codes s :=
  match n with
  | .mk (some ch) f l r => fun cur st st' => by
      rcases h with ⟨q, hq⟩
      have hs : s = ch := by cases hq; rfl
      show lookupT (updT st.codes ch cur) s = lookupT (updT st'.codes ch cur) s
      rw [hs, lookupT_updT_self, lookupT_updT_self]
  | .mk none f l r => fun cur st st' => by
      show lookupT (build_codes r (cur ++ [true])
            (build_codes l (cur ++ [false]) st)).codes s
          = lookupT (build_codes r (cur ++ [true])
            (build_codes l (cur ++ [false]) st')).codes s
      rcases aOn_internal_inv h with hl | hr
      · by_cases hr2 : AOnO r s
        · exact bc_lookup_indep r s hr2 _ _ _
        · rw [bc_lookup_untouched r s hr2, bc_lookup_untouched r s hr2]
          exact bc_lookup_indep l s hl _ _ _
      · exact bc_lookup_indep r s hr _ _ _
end

theorem get_encoded_text_congr (tbl1 tbl2 : List (Nat × Bits)) :
    ∀ data : List Nat, (∀ c ∈ data, lookupT tbl1 c = lookupT tbl2 c) →
      get_encoded_text tbl1 data = get_encoded_text tbl2 data
  | [], _ => rfl
  | c :: rest, h => by
      rw [get_encoded_text, get_encoded_text, h c (List.mem_cons_self ..),
        get_encoded_text_congr tbl1 tbl2 rest
          (fun c' hc' => h c' (List.mem_cons_of_mem _ hc'))]

/-! ### Claim theorem C4 (amended part) -/

/-- C4 (amended): although the stored reverse mapping can differ (see the
counterexample), the packed payload bytes of the artifact produced by
`compress` never depend on the instance state left behind by earlier
calls: every byte of the input is assigned a code by the freshly built
tree, and `build_codes` overwrites those entries, so the encoded bit
stream is identical to the fresh compressor's. -/
theorem compress_payload_state_independent (st : Tables) (data : List Nat) :
    (compress st data).map (fun r => r.2.compressed_data)
      = (compress freshTables data).map (fun r => r.2.compressed_data) := by
  by_cases hd : data.length = 0
  · simp only [compress, if_pos hd]
  · simp only [compress, if_neg hd]
    have hlk : ∀ c ∈ data,
        lookupT (build_codes (build_tree (build_heap
          (build_frequency_dict data))) [] st).codes c
        = lookupT (build_codes (build_tree (build_heap
          (build_frequency_dict data))) [] freshTables).codes c := by
      intro c hc
      obtain ⟨t, ht, han⟩ := pipeline_assigned data c hc
      rw [ht]
      exact bc_lookup_indep (.some t) c han [] st freshTables
    rw [get_encoded_text_congr _ _ data hlk]
    cases he : get_encoded_text (build_codes (build_tree (build_heap
        (build_frequency_dict data))) [] freshTables).codes data with
    | none => simp only [he]
    | some enc =>
      simp only [he]
      cases hb : get_byte_array (pad_encoded_text enc) with
      | none => simp only [hb]
      | some b => simp only [hb]; rfl

/-! ### Padding lemmas -/

set_option maxRecDepth 4096 in
/-- Reading back with `int(s, 2)` the 8-bit header written by
`"{0:08b}".format` recovers any value below 256. -/
theorem bitsToNat_toBin8 : ∀ n < 256, bitsToNat (toBin8 n) = n := by decide

theorem length_toBin8 (n : Nat) : (toBin8 n).length = 8 := by
  simp [toBin8]

theorem pad_encoded_text_ne_nil (s : Bits) : pad_encoded_text s ≠ [] := by
  intro h
  have hlen := congrArg List.length h
  rw [pad_encoded_text, List.length_append, length_toBin8] at hlen
  simp at hlen

theorem toBytes_head (s : Bits) (h : s ≠ []) :
    (toBytes s).head? = some (bitsToNat (s.take 8)) := by
  unfold toBytes
  match hl : s.length with
  | 0 => exact absurd (List.length_eq_zero.mp hl) h
  | k + 1 => simp [toBytesF, h]

/-! ### Claim theorems about padding (C3, C9, C10) -/

/-- C9: un-padding inverts padding: for every bit sequence `s`,
`remove_padding (pad_encoded_text s) = s`. -/
theorem remove_padding_pad_encoded_text (s : Bits) :
    remove_padding (pad_encoded_text s) = some s := by
  have hmod : s.length % 8 < 8 := Nat.mod_lt _ (by omega)
  have h8 : (toBin8 (8 - s.length % 8)).length = 8 := length_toBin8 _
  rw [remove_padding, if_neg (pad_encoded_text_ne_nil s)]
  rw [pad_encoded_text, List.take_left' h8, List.drop_left' h8,
    bitsToNat_toBin8 _ (by omega)]
  rw [if_neg (by omega)]
  rw [List.length_append, List.length_replicate]
  have harith : s.length + (8 - s.length % 8) - (8 - s.length % 8) = s.length := by omega
  rw [harith, List.take_left]

/-- C10 (counterexample): a padded bit string whose 8-bit header decodes to
`p = 0` is not returned unchanged after the header: the Python slice
`[:-0]` yields the empty string instead. -/
theorem remove_padding_zero_padding_cex :
    bitsToNat ((List.replicate 8 false ++ List.replicate 8 true).take 8) = 0 ∧
    remove_padding (List.replicate 8 false ++ List.replicate 8 true) = some [] ∧
    some ([] : Bits) ≠ some (List.replicate 8 true) := by decide

/-- C10 (amended): the unpacker drops the 8 header bits and, when the header
value `p` is positive, the last `p` bits of the remainder; but when `p = 0`
it returns the empty sequence (the Python `[:-0]` slice), not the remainder
unchanged. -/
theorem remove_padding_header_behavior (p : Nat) (rest : Bits) (hp : p < 256) :
    remove_padding (toBin8 p ++ rest) =
      some (if p = 0 then [] else rest.take (rest.length - p)) := by
  have hne : toBin8 p ++ rest ≠ [] := by
    intro h
    have hlen := congrArg List.length h
    rw [List.length_append, length_toBin8] at hlen
    simp at hlen
  rw [remove_padding, if_neg hne, List.take_left' (length_toBin8 p),
    List.drop_left' (length_toBin8 p), bitsToNat_toBin8 p hp]
  by_cases h0 : p = 0
  · rw [if_pos h0, if_pos h0]
  · rw [if_neg h0, if_neg h0]

/-- Witness for `remove_padding_header_behavior` at `p = 3` on an 8-bit
remainder. -/
theorem remove_padding_header_behavior_witness :
    remove_padding (toBin8 3 ++ List.replicate 8 true) =
      some (if 3 = 0 then [] else (List.replicate 8 true).take
        ((List.replicate 8 true).length - 3)) :=
  remove_padding_header_behavior 3 (List.replicate 8 true) (by decide)

/-- C3 (counterexample): for the one-byte input `[7]` the padding byte
recorded in the artifact is `8`, which is outside the claimed range
`[0, 7]` and differs from the claimed formula `(8 - len mod 8) mod 8 = 0`
for the byte-aligned (empty) code sequence. -/
theorem padding_header_out_of_range_cex :
    compress freshTables [7] =
      .ok (⟨[(7, [])], [([], 7)]⟩, ⟨[([], 7)], [8, 0]⟩) ∧
    (⟨[([], 7)], [8, 0]⟩ : Artifact).compressed_data.head? = some 8 ∧
    ¬ (8 ≤ 7) ∧ (8 - ([] : Bits).length % 8) % 8 = 0 := by decide

/-- C3 (amended): the padding byte stored at the head of the payload of
every artifact produced by a fresh compressor equals `8 - len mod 8` of
the concatenated code bits, lies in `[1, 8]`, and is `8` (not `0`) when
the bits are already byte-aligned. -/
theorem padding_header_bounds (data : List Nat) (r : Tables × Artifact)
    (h : compress freshTables data = .ok r) :
    ∃ bits, get_encoded_text r.1.codes data = some bits ∧
      r.2.compressed_data.head? = some (8 - bits.length % 8) ∧
      1 ≤ 8 - bits.length % 8 ∧ 8 - bits.length % 8 ≤ 8 ∧
      (bits.length % 8 = 0 → 8 - bits.length % 8 = 8) := by
  simp only [compress] at h
  by_cases hd : data.length = 0
  · rw [if_pos hd] at h
    simp at h
  · rw [if_neg hd] at h
    cases he : get_encoded_text (build_codes (build_tree (build_heap
        (build_frequency_dict data))) [] freshTables).codes data with
    | none => rw [he] at h; simp at h
    | some encoded =>
      simp only [he] at h
      cases hb : get_byte_array (pad_encoded_text encoded) with
      | none => rw [hb] at h; simp at h
      | some b =>
        simp only [hb] at h
        injection h with h'
        subst h'
        have hm : encoded.length % 8 < 8 := Nat.mod_lt _ (by omega)
        rw [get_byte_array] at hb
        split at hb
        · injection hb with hb'
          subst hb'
          refine ⟨encoded, he, ?_, by omega, by omega, fun h0 => by omega⟩
          rw [toBytes_head _ (pad_encoded_text_ne_nil _), pad_encoded_text,
            List.take_left' (length_toBin8 _), bitsToNat_toBin8 _ (by omega)]
        · exact absurd hb (by simp)

/-- Witness for `padding_header_bounds` at the one-byte input `[7]`, whose
(empty) code bit sequence is byte-aligned. -/
theorem padding_header_bounds_witness :
    ∃ bits, get_encoded_text (⟨[(7, [])], [([], 7)]⟩ : Tables).codes [7]
        = some bits ∧
      (⟨[([], 7)], [8, 0]⟩ : Artifact).compressed_data.head?
        = some (8 - bits.length % 8) ∧
      1 ≤ 8 - bits.length % 8 ∧ 8 - bits.length % 8 ≤ 8 ∧
      (bits.length % 8 = 0 → 8 - bits.length % 8 = 8) :=
  padding_header_bounds [7] (⟨[(7, [])], [([], 7)]⟩, ⟨[([], 7)], [8, 0]⟩)
    (by decide)

/-! ### Claim theorems evaluating the code on failing inputs
(C1, C2, C5, C6) -/

set_option maxRecDepth 10000 in
/-- C1 (code bug): the advertised lossless round trip fails on the
single-symbol buffer of 1000 bytes of value 7: compression succeeds, but
decompressing the produced artifact returns the empty buffer, because the
sole symbol receives the empty code. -/
theorem compress_decompress_single_symbol_loses_data :
    compress freshTables (List.replicate 1000 7) =
      .ok (⟨[(7, [])], [([], 7)]⟩, ⟨[([], 7)], [8, 0]⟩) ∧
    decompress ⟨[([], 7)], [8, 0]⟩ = .ok [] ∧
    ([] : List Nat) ≠ List.replicate 1000 7 := by decide

set_option maxRecDepth 10000 in
/-- C2 (code bug): for an alphabet of exactly one distinct symbol the code
table generator assigns that symbol the empty bit string (length 0), not a
code of length at least one. -/
theorem build_codes_single_symbol_empty_code :
    lookupT (build_codes (build_tree (build_heap
      (build_frequency_dict (List.replicate 1000 7)))) [] freshTables).codes 7
      = some [] ∧
    ([] : Bits).length = 0 := by decide

/-- C5 (code bug): setting the padding byte of a valid artifact (produced
for the input `[97, 98]`) to 9 does not make `decompress` report an error:
it silently returns a success result with truncated output. -/
theorem decompress_padding_nine_no_error :
    compress freshTables [97, 98] =
      .ok (⟨[(97, [false]), (98, [true])], [([false], 97), ([true], 98)]⟩,
        ⟨[([false], 97), ([true], 98)], [6, 64]⟩) ∧
    decompress ⟨[([false], 97), ([true], 98)], [9, 64]⟩ = .ok [] ∧
    ([] : List Nat) ≠ [97, 98] := by decide

/-- C6 (code bug): when decoding exhausts the input bits leaving a
non-empty candidate bit string that never matched the reverse mapping,
`decompress` silently returns the truncated output as a success, with no
error signal: here the payload decodes to one byte and leaves the
unmatched candidate `1`. -/
theorem decode_text_leftover_silently_dropped :
    decode_text_aux [([false], 97)] [false, true] [] [] = ([97], [true]) ∧
    ([true] : Bits) ≠ [] ∧
    decompress ⟨[([false], 97)], [6, 64]⟩ = .ok [97] := by decide

/-! ### Claim theorem C7 -/

/-- C7: compressing an empty input buffer returns the failure result with
the user-visible message `File is empty`, never an artifact. -/
theorem compress_empty_input_error (st : Tables) :
    compress st [] = .error "File is empty" := rfl

/-! ### Claim theorem C4 (counterexample part) -/

/-- C4 (counterexample): compressing `[5, 6]` on a compressor that
previously compressed `[0, 0, 1, 2]` stores a reverse mapping with a stale
entry for the code `10` inherited from the first call, which the fresh
compressor's artifact for `[5, 6]` does not contain: the two artifacts
differ. -/
theorem compress_stale_state_cex :
    compress freshTables [0, 0, 1, 2] =
      .ok (⟨[(0, [false]), (1, [true, false]), (2, [true, true])],
            [([false], 0), ([true, false], 1), ([true, true], 2)]⟩,
           ⟨[([false], 0), ([true, false], 1), ([true, true], 2)], [2, 44]⟩) ∧
    compress ⟨[(0, [false]), (1, [true, false]), (2, [true, true])],
              [([false], 0), ([true, false], 1), ([true, true], 2)]⟩ [5, 6] =
      .ok (⟨[(0, [false]), (1, [true, false]), (2, [true, true]),
             (5, [false]), (6, [true])],
            [([false], 5), ([true, false], 1), ([true, true], 2), ([true], 6)]⟩,
           ⟨[([false], 5), ([true, false], 1), ([true, true], 2), ([true], 6)],
            [6, 64]⟩) ∧
    compress freshTables [5, 6] =
      .ok (⟨[(5, [false]), (6, [true])], [([false], 5), ([true], 6)]⟩,
           ⟨[([false], 5), ([true], 6)], [6, 64]⟩) ∧
    lookupT [([false], 5), ([true, false], 1), ([true, true], 2), ([true], 6)]
      [true, false] = some 1 ∧
    lookupT ([([false], 5), ([true], 6)] : List (Bits × Nat)) [true, false]
      = none := by decide

end Compression
